import Mathlib

/-!
Verification of the miniplex (hmecs-era) entity/component store.

The development shallowly embeds `src/ecs.ts` and
`packages/miniplex-core/src/predicates.ts`. JavaScript objects are
association lists from property name to value; object identity (entities,
archetype arrays, predicate functions) is modelled by natural-number
references into explicit tables, so that reference equality and
memoization are faithfully represented. The five helper modules imported
by `ecs.ts` (`entityIsArchetype`, `idGenerator`, `commandQueue`,
`ListenerRegistry`, `memoizedMap`) are not part of the provided sources;
their definitions below are modelled from the specification and marked
as such in their doc comments.
-/

namespace Miniplex

/-- JavaScript values, as far as the store observes them: `undefined`
versus defined data. Numbers carry entity identifiers; strings stand in
for arbitrary component payloads. -/
inductive JSVal where
  | undef
  | num (n : Nat)
  | str (s : String)
deriving DecidableEq

/-- A JavaScript object: an association list from property name to value,
in insertion order, with unique keys. A key that is absent from the list
is an absent property (the `in` operator is false); a key mapped to
`JSVal.undef` is present but undefined. -/
abbrev Entity := List (String × JSVal)

/-- Property read: `entity[k]`, as far as key presence is concerned.
Returns `none` when the key is absent. -/
def getProp : Entity → String → Option JSVal
  | [], _ => Option.none
  | (k, v) :: rest, k0 => if k = k0 then Option.some v else getProp rest k0

/-- The JavaScript `in` operator: key presence, regardless of the value. -/
def hasKey (e : Entity) (k : String) : Bool :=
  (getProp e k).isSome

/-- Whether `entity[k] !== undefined`: the key is present and its value
is not `undefined`. -/
def defined (e : Entity) (k : String) : Bool :=
  match getProp e k with
  | Option.some JSVal.undef => false
  | Option.some _ => true
  | Option.none => false

/-- Property write `entity[k] = v`: replaces the value in place when the
key exists, appends the key otherwise (JavaScript insertion order). -/
def setProp : Entity → String → JSVal → Entity
  | [], k0, v0 => [(k0, v0)]
  | (k, v) :: rest, k0, v0 =>
    if k = k0 then (k, v0) :: rest else (k, v) :: setProp rest k0 v0

/-- The `delete entity[k]` operator: removes the key when present. -/
def delProp : Entity → String → Entity
  | [], _ => []
  | (k, v) :: rest, k0 => if k = k0 then rest else (k, v) :: delProp rest k0

/-- `Object.keys(entity)`: the property names in insertion order. -/
def objKeys (e : Entity) : List String :=
  e.map (fun p => p.1)

/-- Modelled from the spec: `util/entityIsArchetype` is imported by
`ecs.ts` but absent from the provided sources. Membership rule of
section 4.2: entity E satisfies archetype A iff, for every component
name in A, E holds a defined (non-absent) value for that name. -/
def entityIsArchetype (e : Entity) (archetype : List String) : Bool :=
  archetype.all (fun n => defined e n)

/-- Code-unit comparison of characters, as JavaScript string comparison
performs it. -/
def charLt (c d : Char) : Bool := c.val.toNat < d.val.toNat

/-- Lexicographic comparison of character lists. -/
def charListLe : List Char → List Char → Bool
  | [], _ => true
  | _ :: _, [] => false
  | c :: cs, d :: ds =>
    if charLt c d then true else if charLt d c then false else charListLe cs ds

/-- JavaScript string comparison, lexicographic on code units. -/
def strLe (a b : String) : Bool := charListLe a.data b.data

/-- Insertion step for lexicographic string sorting. -/
def insortStr (x : String) : List String → List String
  | [] => [x]
  | y :: ys => if strLe x y then x :: y :: ys else y :: insortStr x ys

/-- JavaScript `Array.prototype.sort()` on string arrays: lexicographic
order. (The source calls `components.sort()`, which also mutates the
array in place; the sorted list is therefore what closures capture.) -/
def jsSortStrings : List String → List String
  | [] => []
  | x :: xs => insortStr x (jsSortStrings xs)

/-- Generic association-list lookup, first match wins. Models both
`Map.get` for maps we key by serialized content and `WeakMap.get` for
maps keyed by object identity. -/
def lookupList {κ β : Type} [DecidableEq κ] : List (κ × β) → κ → Option β
  | [], _ => Option.none
  | (k, v) :: rest, k0 => if k = k0 then Option.some v else lookupList rest k0

/-- A deferred mutation captured in the command queue, with its operands.
The source captures closures; each closure built by the deferred API is
one of exactly these four shapes. -/
inductive Command where
  | addEntity (r : Nat)
  | removeEntity (r : Nat)
  | addComponent (r : Nat) (name : String) (v : JSVal)
  | removeComponent (r : Nat) (names : List String)
deriving DecidableEq

/-- One registered archetype: its identity `aid` (the archetype array
object), its component-name content, its index (entity references, in
push order), and the number of times its listener registry has been
invoked. The fires counter models the `ListenerRegistry` (absent from the
provided sources): modelled from the spec, `invoke()` calls every
registered callback once, so one invocation is one firing of the
listener set. -/
structure ArchEntry where
  aid : Nat
  comps : List String
  index : List Nat
  fires : Nat
deriving DecidableEq

/-- The state owned by one `createWorld()` instance, together with the
heap of entity objects the caller has allocated. Entity objects are
shared by reference: `heap` maps a reference (its index) to the current
object contents. `memo` is the `memoizedMap` of archetype arrays
(modelled from the spec: a cache keyed by the canonicalized list that
always yields the same cached value for the same logical key), mapping
the normalized component list to the archetype object identity.
`nextId` models `idGenerator(1)` (modelled from the spec: a monotonically
increasing sequence of unique integers starting at 1). `queue` models
the `commandQueue` (modelled from the spec: a FIFO buffer of deferred
mutation thunks). -/
structure World where
  heap : List Entity
  entities : List Nat
  nextId : Nat
  memo : List (List String × Nat)
  nextAid : Nat
  archetypes : List ArchEntry
  queue : List Command
deriving DecidableEq

/-- A fresh store, as built by `createWorld()`. -/
def createWorld : World :=
  { heap := [], entities := [], nextId := 1, memo := [], nextAid := 0,
    archetypes := [], queue := [] }

/-- Allocate a new entity object on the caller side (a JavaScript object
literal); returns the world with the extended heap and the reference. -/
def alloc (w : World) (e : Entity) : World × Nat :=
  ({ w with heap := w.heap ++ [e] }, w.heap.length)

/-- Dereference an entity object. -/
def heapGet (w : World) (r : Nat) : Entity :=
  w.heap.getD r []

/-- Overwrite an entity object in place (all holders of the reference see
the update). -/
def heapSet (w : World) (r : Nat) (e : Entity) : World :=
  { w with heap := w.heap.set r e }

/-- Find the registered entry of an archetype identity:
`archetypes.get(archetype)` on the `Map` keyed by object identity. -/
def findArch : List ArchEntry → Nat → Option ArchEntry
  | [], _ => Option.none
  | a :: rest, aid => if a.aid = aid then Option.some a else findArch rest aid

/-- `createArchetype(...components)`: sorts the name list (the source
does not deduplicate), fetches the memoized archetype object for the
normalized list, and, only when no index exists for that object yet,
builds the index by filtering the current entity list and allocates a
fresh listener registry. -/
def createArchetype (w : World) (components : List String) : World × Nat :=
  let normalized := jsSortStrings components
  match lookupList w.memo normalized with
  | Option.some aid =>
    match findArch w.archetypes aid with
    | Option.some _ => (w, aid)
    | Option.none =>
      ({ w with archetypes := w.archetypes ++
          [⟨aid, normalized,
            w.entities.filter (fun r => entityIsArchetype (heapGet w r) normalized), 0⟩] },
       aid)
  | Option.none =>
    let aid := w.nextAid
    ({ w with
        memo := w.memo ++ [(normalized, aid)],
        nextAid := aid + 1,
        archetypes := w.archetypes ++
          [⟨aid, normalized,
            w.entities.filter (fun r => entityIsArchetype (heapGet w r) normalized), 0⟩] },
     aid)

/-- `get(archetype)`: `archetypes.get(archetype)!`. The non-null
assertion is erased at runtime, so an unregistered archetype yields
`undefined` (`none`) rather than raising. The source performs no
mutation, so the function reads the world and returns only the lookup. -/
def get (w : World) (aid : Nat) : Option (List Nat) :=
  (findArch w.archetypes aid).map (fun a => a.index)

/-- Runtime error message for reading index 0 of `undefined`. -/
def typeErrMsg : String := "TypeError: archetypes.get(archetype) is undefined"

/-- `getOne(archetype)`: `archetypes.get(archetype)![0]`. When the
archetype is unregistered the lookup is `undefined` and the element read
raises a TypeError; otherwise the first element (or `undefined` for an
empty index) is returned. -/
def getOne (w : World) (aid : Nat) : Except String (Option Nat) :=
  match findArch w.archetypes aid with
  | Option.none => Except.error typeErrMsg
  | Option.some a => Except.ok a.index.head?

/-- JavaScript `list.splice(list.indexOf(x, 0), 1)` exactly as the
source writes it: removes the first occurrence of `x` when present;
when `x` is absent, `indexOf` is `-1` and `splice(-1, 1)` removes the
last element of the list. -/
def spliceOut (l : List Nat) (x : Nat) : List Nat :=
  if x ∈ l then l.erase x else l.dropLast

/-- Per-archetype step of `indexEntityWithNewComponents`. -/
def newTouch (hp : List Entity) (r : Nat) (added : List String) (a : ArchEntry) : ArchEntry :=
  if a.comps.any (fun c => added.contains c) then
    if entityIsArchetype (hp.getD r []) a.comps && !(a.index.contains r) then
      { a with index := a.index ++ [r], fires := a.fires + 1 }
    else a
  else a

/-- `indexEntityWithNewComponents(entity, addedComponents)`: every
archetype interested in one of the added names re-tests the entity and
pushes it (and fires its listeners) when it matches and is not yet
listed. -/
def indexEntityWithNewComponents (w : World) (r : Nat) (added : List String) : World :=
  { w with archetypes := w.archetypes.map (newTouch w.heap r added) }

/-- Per-archetype step of `indexEntityWithRemovedComponents`. The splice
is unguarded: when the entity is not in the index, `indexOf` is `-1` and
the last element of the index is removed instead. -/
def removedTouch (hp : List Entity) (r : Nat) (removed : List String) (a : ArchEntry) : ArchEntry :=
  if a.comps.any (fun c => removed.contains c) then
    if !(entityIsArchetype (hp.getD r []) a.comps) then
      { a with index := spliceOut a.index r, fires := a.fires + 1 }
    else a
  else a

/-- `indexEntityWithRemovedComponents(entity, removedComponents)`. -/
def indexEntityWithRemovedComponents (w : World) (r : Nat) (removed : List String) : World :=
  { w with archetypes := w.archetypes.map (removedTouch w.heap r removed) }

/-- `removeEntityFromAllIndices(entity)`: here the splice is guarded by
`pos >= 0`, so only indices actually containing the entity change, each
firing its listeners once. -/
def removeEntityFromAllIndices (w : World) (r : Nat) : World :=
  { w with archetypes := w.archetypes.map (fun a =>
      if a.index.contains r then
        { a with index := a.index.erase r, fires := a.fires + 1 }
      else a) }

/-- The DuplicateIdentifier condition thrown by `immediately.addEntity`. -/
def dupIdMsg : String := "Attempted to add an entity that already had an id component."

/-- `immediately.addEntity(entity)`: throws when the object already has
an `id` key, otherwise assigns the next identifier, appends to the
master list, and indexes the entity under its current property names. -/
def immediately.addEntity (w : World) (r : Nat) : Except String (World × Nat) :=
  if hasKey (heapGet w r) "id" then Except.error dupIdMsg
  else
    let e2 := setProp (heapGet w r) "id" (JSVal.num w.nextId)
    let w1 := heapSet w r e2
    let w2 := { w1 with nextId := w1.nextId + 1, entities := w1.entities ++ [r] }
    Except.ok (indexEntityWithNewComponents w2 r (objKeys e2), r)

/-- `immediately.removeEntity(entity)`: removes the entity from every
index containing it, deletes its `id` key, then removes it from the
master list via the unguarded `indexOf`/`splice` pair. -/
def immediately.removeEntity (w : World) (r : Nat) : World :=
  let w1 := removeEntityFromAllIndices w r
  let w2 := heapSet w1 r (delProp (heapGet w1 r) "id")
  { w2 with entities := spliceOut w2.entities r }

/-- `immediately.addComponent(entity, name, data)`. -/
def immediately.addComponent (w : World) (r : Nat) (name : String) (data : JSVal) : World :=
  let w1 := heapSet w r (setProp (heapGet w r) name data)
  indexEntityWithNewComponents w1 r [name]

/-- `immediately.removeComponent(entity, ...components)`. -/
def immediately.removeComponent (w : World) (r : Nat) (components : List String) : World :=
  let w1 := heapSet w r (components.foldl (fun e n => delProp e n) (heapGet w r))
  indexEntityWithRemovedComponents w1 r components

/-- Deferred `addEntity(entity)`: enqueues the immediate call and
returns the entity unchanged. -/
def addEntity (w : World) (r : Nat) : World × Nat :=
  ({ w with queue := w.queue ++ [Command.addEntity r] }, r)

/-- Deferred `removeEntity(entity)`. -/
def removeEntity (w : World) (r : Nat) : World :=
  { w with queue := w.queue ++ [Command.removeEntity r] }

/-- Deferred `addComponent(entity, name, data)`. -/
def addComponent (w : World) (r : Nat) (name : String) (data : JSVal) : World :=
  { w with queue := w.queue ++ [Command.addComponent r name data] }

/-- Deferred `removeComponent(entity, ...names)`. -/
def removeComponent (w : World) (r : Nat) (names : List String) : World :=
  { w with queue := w.queue ++ [Command.removeComponent r names] }

/-- Execute one queued thunk. An `immediately.addEntity` thunk may throw
out of the flush. -/
def runCommand (w : World) : Command → Except String World
  | Command.addEntity r => (immediately.addEntity w r).map (fun p => p.1)
  | Command.removeEntity r => Except.ok (immediately.removeEntity w r)
  | Command.addComponent r n v => Except.ok (immediately.addComponent w r n v)
  | Command.removeComponent r ns => Except.ok (immediately.removeComponent w r ns)

/-- Execute a list of thunks in order. -/
def runCommands (w : World) : List Command → Except String World
  | [] => Except.ok w
  | c :: cs =>
    match runCommand w c with
    | Except.error msg => Except.error msg
    | Except.ok w2 => runCommands w2 cs

/-- Modelled from the spec: `commandQueue().flush()` is absent from the
provided sources; section 4.3 states that it executes all queued thunks
in enqueue order, then empties the queue. -/
def flush (w : World) : Except String World :=
  (runCommands w w.queue).map (fun w2 => { w2 with queue := [] })

/-- `clear()`: empties the master list, the archetype registry, the
listener registries and the pending queue (modelled from the spec:
`commandQueue().clear()` discards the queue without executing it). The
memoization cache of archetype objects and the identifier counter are
not reset. -/
def clear (w : World) : World :=
  { w with entities := [], archetypes := [], queue := [] }

end Miniplex

namespace Preds

open Miniplex

/-- The kind of a memoized combinator closure. -/
inductive PredKind where
  | allK
  | anyK
  | noneK
deriving DecidableEq

/-- The body of a predicate function object. A combinator closure
captures the component-name array as it stands after `key` sorted it in
place: unfiltered and undeduplicated. A `neg` closure captures the
predicate object it negates. -/
inductive PredDef where
  | comb (k : PredKind) (comps : List String)
  | neg (p : Nat)
deriving DecidableEq

/-- The module-scoped state of `predicates.ts`: the table of allocated
function objects (identity is the allocation number) and the four
memoization stores. `notStore` models the `WeakMap` keyed by function
identity; the three others model the `Map`s keyed by the serialized
canonical name list (serialization of a string list is injective, so the
canonical list itself is the key). -/
structure PredState where
  funs : List (Nat × PredDef)
  nextFun : Nat
  notStore : List (Nat × Nat)
  allStore : List (List String × Nat)
  anyStore : List (List String × Nat)
  noneStore : List (List String × Nat)
deriving DecidableEq

/-- The module state at load time: empty stores. -/
def predInit : PredState :=
  { funs := [], nextFun := 0, notStore := [], allStore := [],
    anyStore := [], noneStore := [] }

/-- Helper for first-occurrence deduplication: keeps the elements not
seen yet, in order. -/
def dedupFirstAux (seen : List String) : List String → List String
  | [] => []
  | x :: xs =>
    if x ∈ seen then dedupFirstAux seen xs
    else x :: dedupFirstAux (x :: seen) xs

/-- First-occurrence deduplication, as `[...new Set(list)]` performs it. -/
def dedupFirst (l : List String) : List String := dedupFirstAux [] l

/-- The `key(components)` canonicalization: sort (in place), drop
empty/falsy names, deduplicate, serialize. -/
def canonKey (components : List String) : List String :=
  dedupFirst ((jsSortStrings components).filter (fun p => p ≠ ""))

/-- `all(...components)`: memoized on the canonical key; on a miss the
new closure captures the sorted (but unfiltered, undeduplicated)
component list, because `key` sorted the array in place. -/
def all (s : PredState) (components : List String) : PredState × Nat :=
  let sorted := jsSortStrings components
  let k := dedupFirst (sorted.filter (fun p => p ≠ ""))
  match lookupList s.allStore k with
  | Option.some fid => (s, fid)
  | Option.none =>
    let fid := s.nextFun
    ({ s with funs := s.funs ++ [(fid, PredDef.comb PredKind.allK sorted)],
              nextFun := fid + 1,
              allStore := s.allStore ++ [(k, fid)] }, fid)

/-- `any(...components)`. -/
def any (s : PredState) (components : List String) : PredState × Nat :=
  let sorted := jsSortStrings components
  let k := dedupFirst (sorted.filter (fun p => p ≠ ""))
  match lookupList s.anyStore k with
  | Option.some fid => (s, fid)
  | Option.none =>
    let fid := s.nextFun
    ({ s with funs := s.funs ++ [(fid, PredDef.comb PredKind.anyK sorted)],
              nextFun := fid + 1,
              anyStore := s.anyStore ++ [(k, fid)] }, fid)

/-- `none(...components)`. -/
def noneOf (s : PredState) (components : List String) : PredState × Nat :=
  let sorted := jsSortStrings components
  let k := dedupFirst (sorted.filter (fun p => p ≠ ""))
  match lookupList s.noneStore k with
  | Option.some fid => (s, fid)
  | Option.none =>
    let fid := s.nextFun
    ({ s with funs := s.funs ++ [(fid, PredDef.comb PredKind.noneK sorted)],
              nextFun := fid + 1,
              noneStore := s.noneStore ++ [(k, fid)] }, fid)

/-- `not(predicate)`: memoized by the identity of the argument. -/
def notOf (s : PredState) (p : Nat) : PredState × Nat :=
  match lookupList s.notStore p with
  | Option.some fid => (s, fid)
  | Option.none =>
    let fid := s.nextFun
    ({ s with funs := s.funs ++ [(fid, PredDef.neg p)],
              nextFun := fid + 1,
              notStore := s.notStore ++ [(p, fid)] }, fid)

/-- Apply the predicate function object `fid` of table `funs` to an
entity. `fuel` bounds the depth of `neg` chains; every chain built by
the module is finite, and any fuel at least the chain depth gives the
JavaScript result. -/
def evalFun (funs : List (Nat × PredDef)) : Nat → Nat → Entity → Bool
  | 0, _, _ => false
  | Nat.succ fuel, fid, e =>
    match lookupList funs fid with
    | Option.some (PredDef.comb PredKind.allK comps) =>
      comps.all (fun c => defined e c)
    | Option.some (PredDef.comb PredKind.anyK comps) =>
      comps.any (fun c => defined e c)
    | Option.some (PredDef.comb PredKind.noneK comps) =>
      comps.all (fun c => !(defined e c))
    | Option.some (PredDef.neg p) => !(evalFun funs fuel p e)
    | Option.none => false

/-- One constructor call, for reasoning about arbitrary interleaved use
of the module. -/
inductive PredCall where
  | callAll (comps : List String)
  | callAny (comps : List String)
  | callNone (comps : List String)
  | callNot (p : Nat)

/-- Apply one constructor call to the module state. -/
def stepPred (s : PredState) : PredCall → PredState
  | PredCall.callAll cs => (all s cs).1
  | PredCall.callAny cs => (any s cs).1
  | PredCall.callNone cs => (noneOf s cs).1
  | PredCall.callNot p => (notOf s p).1

/-- Apply a sequence of constructor calls. -/
def runPred : PredState → List PredCall → PredState
  | s, [] => s
  | s, c :: cs => runPred (stepPred s c) cs

end Preds

namespace Miniplex

/-- Listener invocation count of a registered archetype. -/
def firesOf (w : World) (aid : Nat) : Option Nat :=
  (findArch w.archetypes aid).map (fun a => a.fires)

/-- Scenario: a fresh world holding two caller-allocated entity objects,
entity 0 with component `a` only, entity 1 with components `a` and `b`. -/
def scenAB0 : World :=
  { createWorld with
    heap := [[("a", JSVal.num 10)], [("a", JSVal.num 20), ("b", JSVal.num 30)]] }

/-- The archetype `(a, b)` is registered first; its identity is 0. -/
def scenAB1 : World := (createArchetype scenAB0 ["a", "b"]).1

/-- Entity 0 admitted through `immediately.addEntity`. -/
def scenAB2 : World :=
  match immediately.addEntity scenAB1 0 with
  | Except.ok p => p.1
  | Except.error _ => scenAB1

/-- Entity 1 admitted through `immediately.addEntity`; the `(a, b)` index
now holds exactly entity 1. -/
def scenAB3 : World :=
  match immediately.addEntity scenAB2 1 with
  | Except.ok p => p.1
  | Except.error _ => scenAB2

/-- `immediately.removeComponent(entity0, "a")` applied to the scenario. -/
def scenABRemoved : World := immediately.removeComponent scenAB3 0 ["a"]

/-- Scenario for removal of a non-member entity: entity 0 is added to a
fresh world, entity 1 is allocated but never added. -/
def scenRm0 : World :=
  { createWorld with heap := [[("a", JSVal.num 1)], [("b", JSVal.num 2)]] }

/-- Entity 0 admitted. -/
def scenRm1 : World :=
  match immediately.addEntity scenRm0 0 with
  | Except.ok p => p.1
  | Except.error _ => scenRm0

/-- The world produced by a successful `immediately.addEntity(entity)`:
the entity gains the `id` key with the next identifier, is appended to
the master list, and is indexed under its current property names. -/
def afterAdd (w : World) (r : Nat) : World :=
  indexEntityWithNewComponents
    { heapSet w r (setProp (heapGet w r) "id" (JSVal.num w.nextId)) with
      nextId := w.nextId + 1,
      entities := w.entities ++ [r] } r
    (objKeys (setProp (heapGet w r) "id" (JSVal.num w.nextId)))

/-- Checks that a function-table entry that is a negation refers to a
strictly earlier function object, as every `not(p)` call on an existing
predicate produces. -/
def negOkB (x : Nat × Preds.PredDef) : Bool :=
  match x.2 with
  | Preds.PredDef.neg q => decide (q < x.1)
  | _ => true

/-- Checks that a combinator-store entry maps its canonical key to a
combinator closure of the right kind whose captured list has that
canonical key and contains no empty name. -/
def combEntryOk (funs : List (Nat × Preds.PredDef)) (k : Preds.PredKind)
    (en : List String × Nat) : Bool :=
  match lookupList funs en.2 with
  | Option.some (Preds.PredDef.comb k2 comps) =>
    decide (k2 = k) && decide (Preds.canonKey comps = en.1) && decide ("" ∉ comps)
  | _ => false

/-- Checks that a `not`-store entry maps a predicate to its negation
closure. -/
def notEntryOk (funs : List (Nat × Preds.PredDef)) (en : Nat × Nat) : Bool :=
  match lookupList funs en.2 with
  | Option.some (Preds.PredDef.neg p) => decide (p = en.1)
  | _ => false

/-- Well-formedness of the predicate-module state: every state reachable
by constructor calls that never pass an empty/falsy component name and
always pass existing function objects to `not` satisfies it. Function
identities are bounded by the allocation counter, negations refer to
earlier objects, and every store entry is consistent with the closure it
points to. -/
def PredWF (s : Preds.PredState) : Prop :=
  (∀ x ∈ s.funs, x.1 < s.nextFun ∧ negOkB x = true) ∧
  (∀ en ∈ s.allStore, combEntryOk s.funs Preds.PredKind.allK en = true) ∧
  (∀ en ∈ s.anyStore, combEntryOk s.funs Preds.PredKind.anyK en = true) ∧
  (∀ en ∈ s.noneStore, combEntryOk s.funs Preds.PredKind.noneK en = true) ∧
  (∀ en ∈ s.notStore, notEntryOk s.funs en = true)

/-- A world used to witness the deferred-mutation claim: one entity with
component `a` allocated, the archetype `(a)` registered, empty queue. -/
def c6W : World :=
  (createArchetype { createWorld with heap := [[("a", JSVal.num 1)]] } ["a"]).1

/-- The expected world after `immediately.addEntity(entity0)` on `c6W`. -/
def c6Exp : World :=
  match immediately.addEntity c6W 0 with
  | Except.ok p => p.1
  | Except.error _ => c6W

/-- A predicate-module state used to witness the predicate-semantics
claim: one `all("b")` function allocated. -/
def predW : Preds.PredState := (Preds.all Preds.predInit ["b"]).1

/-- A concrete entity with component `a` defined, used in witnesses. -/
def entA : Entity := [("a", JSVal.num 1)]

theorem lookupList_append_left {κ β : Type} [DecidableEq κ] {l l2 : List (κ × β)} {k : κ}
    {v : β} (h : lookupList l k = Option.some v) :
    lookupList (l ++ l2) k = Option.some v := by
  induction l with
  | nil => simp [lookupList] at h
  | cons p rest ih =>
    obtain ⟨k1, v1⟩ := p
    simp only [lookupList, List.cons_append] at h ⊢
    split at h
    case isTrue hc => simp only [if_pos hc]; exact h
    case isFalse hc => simp only [if_neg hc]; exact ih h

theorem lookupList_append_right {κ β : Type} [DecidableEq κ] {l : List (κ × β)} {k : κ}
    (l2 : List (κ × β)) (h : lookupList l k = Option.none) :
    lookupList (l ++ l2) k = lookupList l2 k := by
  induction l with
  | nil => simp
  | cons p rest ih =>
    obtain ⟨k1, v1⟩ := p
    by_cases hc : k1 = k
    · simp [lookupList, hc] at h
    · simp only [lookupList, if_neg hc] at h
      simp [lookupList, if_neg hc, ih h]

theorem lookupList_append_self {κ β : Type} [DecidableEq κ] {l : List (κ × β)} {k : κ}
    (v : β) (h : lookupList l k = Option.none) :
    lookupList (l ++ [(k, v)]) k = Option.some v := by
  rw [lookupList_append_right _ h]
  simp [lookupList]

theorem lookupList_mem {κ β : Type} [DecidableEq κ] {l : List (κ × β)} {k : κ} {v : β}
    (h : lookupList l k = Option.some v) : (k, v) ∈ l := by
  induction l with
  | nil => simp [lookupList] at h
  | cons p rest ih =>
    obtain ⟨k1, v1⟩ := p
    simp only [lookupList] at h
    split at h
    case isTrue hc =>
      simp only [Option.some.injEq] at h
      subst hc
      subst h
      exact List.mem_cons_self _ _
    case isFalse hc =>
      exact List.mem_cons_of_mem _ (ih h)

theorem lookupList_none_of_forall {κ β : Type} [DecidableEq κ] {l : List (κ × β)} {k : κ}
    (h : ∀ x ∈ l, x.1 ≠ k) : lookupList l k = Option.none := by
  induction l with
  | nil => rfl
  | cons p rest ih =>
    obtain ⟨k1, v1⟩ := p
    have h1 : k1 ≠ k := h (k1, v1) (List.mem_cons_self _ _)
    simp only [lookupList, if_neg h1]
    exact ih (fun x hx => h x (List.mem_cons_of_mem _ hx))

theorem findArch_append_left {l l2 : List ArchEntry} {aid : Nat} {a : ArchEntry}
    (h : findArch l aid = Option.some a) : findArch (l ++ l2) aid = Option.some a := by
  induction l with
  | nil => simp [findArch] at h
  | cons b rest ih =>
    simp only [findArch, List.cons_append] at h ⊢
    split at h
    case isTrue hc =>
      simp only [Option.some.injEq] at h
      subst h
      simp [if_pos hc]
    case isFalse hc =>
      simp only [if_neg hc]
      exact ih h

theorem findArch_append_self {l : List ArchEntry} {aid : Nat} (en : ArchEntry)
    (h : findArch l aid = Option.none) (he : en.aid = aid) :
    findArch (l ++ [en]) aid = Option.some en := by
  induction l with
  | nil => simp [findArch, he]
  | cons b rest ih =>
    by_cases hc : b.aid = aid
    · simp [findArch, hc] at h
    · simp only [findArch, if_neg hc] at h
      simp [findArch, if_neg hc, ih h]

theorem findArch_none_of_forall {l : List ArchEntry} {aid : Nat}
    (h : ∀ a ∈ l, a.aid ≠ aid) : findArch l aid = Option.none := by
  induction l with
  | nil => rfl
  | cons b rest ih =>
    have h1 : b.aid ≠ aid := h b (List.mem_cons_self _ _)
    simp only [findArch, if_neg h1]
    exact ih (fun x hx => h x (List.mem_cons_of_mem _ hx))

theorem mem_insortStr {a x : String} {l : List String} :
    a ∈ insortStr x l ↔ a = x ∨ a ∈ l := by
  induction l with
  | nil => simp [insortStr]
  | cons y ys ih =>
    by_cases hc : strLe x y = true
    · simp [insortStr, hc]
    · simp only [insortStr, if_neg hc, List.mem_cons, ih]
      tauto

theorem mem_jsSortStrings {a : String} {l : List String} :
    a ∈ jsSortStrings l ↔ a ∈ l := by
  induction l with
  | nil => simp [jsSortStrings]
  | cons x xs ih => simp [jsSortStrings, mem_insortStr, ih]

theorem mem_dedupFirstAux {a : String} {seen l : List String} :
    a ∈ Preds.dedupFirstAux seen l ↔ a ∈ l ∧ a ∉ seen := by
  induction l generalizing seen with
  | nil => simp [Preds.dedupFirstAux]
  | cons x xs ih =>
    by_cases hc : x ∈ seen
    · simp only [Preds.dedupFirstAux, if_pos hc, ih, List.mem_cons]
      constructor
      · exact fun h => ⟨Or.inr h.1, h.2⟩
      · rintro ⟨h1 | h1, h2⟩
        · subst h1; exact absurd hc h2
        · exact ⟨h1, h2⟩
    · simp only [Preds.dedupFirstAux, if_neg hc, List.mem_cons, ih, List.mem_cons]
      constructor
      · rintro (h | ⟨h1, h2⟩)
        · subst h; exact ⟨Or.inl rfl, hc⟩
        · exact ⟨Or.inr h1, fun hn => h2 (Or.inr hn)⟩
      · rintro ⟨h1 | h1, h2⟩
        · exact Or.inl h1
        · by_cases hax : a = x
          · exact Or.inl hax
          · exact Or.inr ⟨h1, fun hn => (hn.elim hax fun hs => h2 hs)⟩

theorem mem_dedupFirst {a : String} {l : List String} :
    a ∈ Preds.dedupFirst l ↔ a ∈ l := by
  simp [Preds.dedupFirst, mem_dedupFirstAux]

theorem mem_canonKey {a : String} {xs : List String} (h : "" ∉ xs) :
    a ∈ Preds.canonKey xs ↔ a ∈ xs := by
  simp only [Preds.canonKey, mem_dedupFirst, List.mem_filter, mem_jsSortStrings,
    decide_eq_true_eq]
  constructor
  · exact fun hh => hh.1
  · intro hh
    refine ⟨hh, ?_⟩
    intro he
    subst he
    exact h hh

theorem all_congr_mem {xs ys : List String} (p : String → Bool)
    (h : ∀ a, a ∈ xs ↔ a ∈ ys) : xs.all p = ys.all p := by
  have h1 : (xs.all p = true) ↔ (ys.all p = true) := by
    simp only [List.all_eq_true]
    exact ⟨fun hh x hx => hh x ((h x).mpr hx), fun hh x hx => hh x ((h x).mp hx)⟩
  cases hx : xs.all p <;> cases hy : ys.all p <;> simp_all

theorem any_congr_mem {xs ys : List String} (p : String → Bool)
    (h : ∀ a, a ∈ xs ↔ a ∈ ys) : xs.any p = ys.any p := by
  have h1 : (xs.any p = true) ↔ (ys.any p = true) := by
    simp only [List.any_eq_true]
    exact ⟨fun ⟨x, hx, hp⟩ => ⟨x, (h x).mp hx, hp⟩, fun ⟨x, hx, hp⟩ => ⟨x, (h x).mpr hx, hp⟩⟩
  cases hx : xs.any p <;> cases hy : ys.any p <;> simp_all

theorem getD_set_self {α : Type} (l : List α) (i : Nat) (x d : α) (h : i < l.length) :
    (l.set i x).getD i d = x := by
  induction l generalizing i with
  | nil => simp at h
  | cons a as ih =>
    cases i with
    | zero => rfl
    | succ j =>
      simp only [List.set, List.getD, List.getElem?_cons_succ]
      have : j < as.length := Nat.lt_of_succ_lt_succ h
      exact ih j this

theorem getProp_setProp_self (e : Entity) (k : String) (v : JSVal) :
    getProp (setProp e k v) k = Option.some v := by
  induction e with
  | nil => simp [setProp, getProp]
  | cons p rest ih =>
    obtain ⟨k1, v1⟩ := p
    by_cases hc : k1 = k
    · simp [setProp, getProp, hc]
    · simp [setProp, getProp, if_neg hc, ih]

theorem hasKey_setProp_self (e : Entity) (k : String) (v : JSVal) :
    hasKey (setProp e k v) k = true := by
  simp [hasKey, getProp_setProp_self]

theorem immAdd_ok (w : World) (r : Nat) (h : hasKey (heapGet w r) "id" = false) :
    immediately.addEntity w r = Except.ok (afterAdd w r, r) := by
  unfold immediately.addEntity
  rw [if_neg (by simp [h])]
  rfl

theorem heapGet_afterAdd (w : World) (r : Nat) (hr : r < w.heap.length) :
    heapGet (afterAdd w r) r = setProp (heapGet w r) "id" (JSVal.num w.nextId) := by
  show (w.heap.set r (setProp (heapGet w r) "id" (JSVal.num w.nextId))).getD r
      [] = _
  exact getD_set_self _ _ _ _ hr

theorem findArch_append_exists {l : List ArchEntry} {aid : Nat} (en : ArchEntry)
    (he : en.aid = aid) : ∃ a, findArch (l ++ [en]) aid = Option.some a := by
  cases hf : findArch l aid with
  | some a => exact ⟨a, findArch_append_left hf⟩
  | none => exact ⟨en, findArch_append_self en hf he⟩

theorem createArchetype_post (w : World) (xs : List String) :
    lookupList (createArchetype w xs).1.memo (jsSortStrings xs)
      = Option.some (createArchetype w xs).2 ∧
    ∃ en, findArch (createArchetype w xs).1.archetypes (createArchetype w xs).2
      = Option.some en := by
  unfold createArchetype
  cases hm : lookupList w.memo (jsSortStrings xs) with
  | some aid =>
    cases hf : findArch w.archetypes aid with
    | some en => simp [hm, hf]
    | none =>
      simp only [hm, hf]
      refine ⟨?_, findArch_append_exists _ rfl⟩
      simp [hm]
  | none =>
    simp only [hm]
    refine ⟨?_, findArch_append_exists _ rfl⟩
    exact lookupList_append_self _ hm

/-- C1 (code bug): evaluation of the code at the failing input. In the
scenario, entity 1 is in the master list and holds defined values for
both `a` and `b`, yet after `immediately.removeComponent(entity0, "a")`
the index of archetype `(a, b)` is empty: the unguarded
`splice(indexOf(entity0), 1)` removed entity 1, the last element, because
entity 0 was never in that index. The membership invariant is violated. -/
theorem index_exactness_violated :
    get scenABRemoved 0 = Option.some [] ∧
    scenABRemoved.entities = [0, 1] ∧
    entityIsArchetype (heapGet scenABRemoved 1) ["a", "b"] = true := by decide

/-- C2 (code bug): evaluation of the code at the failing input.
`immediately.removeComponent(entity0, "a")` removes entity 1 (an entity
other than entity 0) from the `(a, b)` index and fires the listeners of that index, even though entity 1 still holds both components. -/
theorem removeComponent_removes_other_entity :
    get scenAB3 0 = Option.some [1] ∧
    get scenABRemoved 0 = Option.some [] ∧
    firesOf scenAB3 0 = Option.some 1 ∧
    firesOf scenABRemoved 0 = Option.some 2 ∧
    defined (heapGet scenABRemoved 1) "a" = true ∧
    defined (heapGet scenABRemoved 1) "b" = true := by decide

/-- C5 (code bug): evaluation of the code at the failing input. Removing
(via the immediate `removeEntity`) an entity that was never added is not
a no-op: `entities.indexOf(entity)` is `-1` and `entities.splice(-1, 1)`
removes the last entity of the master list, here emptying it. -/
theorem removeEntity_nonmember_not_noop :
    scenRm1.entities = [0] ∧
    (immediately.removeEntity scenRm1 1).entities = [] := by decide

/-- C3 counterexample: `createArchetype` sorts but does not deduplicate,
so two calls whose name lists are equal as sets but differ in repeated
names return two distinct archetype objects, refuting the claim at the
concrete input `createArchetype("a","a")` versus `createArchetype("a")`. -/
theorem createArchetype_dedup_counterexample :
    (createArchetype (createArchetype createWorld ["a", "a"]).1 ["a"]).2 ≠
      (createArchetype createWorld ["a", "a"]).2 := by decide

/-- C3 (amended): for any two calls to `createArchetype` whose
component-name lists are equal after sorting (duplicates retained, so in
particular for lists differing only in ordering), both calls return the
identical archetype object, and the second call leaves the whole world
(index and listener set included) unchanged: no rebuild, no reset. -/
theorem createArchetype_memoized_sorted (w : World) (xs ys : List String)
    (h : jsSortStrings xs = jsSortStrings ys) :
    createArchetype (createArchetype w xs).1 ys = createArchetype w xs := by
  obtain ⟨hm, en, hf⟩ := createArchetype_post w xs
  set r1 := createArchetype w xs with hr1
  unfold createArchetype
  rw [← h]
  simp only [hm, hf]

/-- C3 witness: the amended theorem applied to the concrete calls
`createArchetype("b","a")` and `createArchetype("a","b")` on a fresh
world. -/
theorem createArchetype_memoized_sorted_witness :
    createArchetype (createArchetype createWorld ["b", "a"]).1 ["a", "b"] =
      createArchetype createWorld ["b", "a"] :=
  createArchetype_memoized_sorted createWorld ["b", "a"] ["a", "b"] (by decide)

/-- C4: `immediately.addEntity` on an entity that already carries an
`id` key fails with the DuplicateIdentifier condition; on an entity
without one it returns the same entity object, now carrying the next
identifier, and every repetition without an intervening removal fails
with the DuplicateIdentifier condition (the state is unchanged by a
throwing call, so all later repetitions fail alike by the first
conjunct). -/
theorem addEntity_identifier (w : World) (r : Nat) (hr : r < w.heap.length) :
    (hasKey (heapGet w r) "id" = true →
      immediately.addEntity w r = Except.error dupIdMsg) ∧
    (hasKey (heapGet w r) "id" = false →
      ∃ w2, immediately.addEntity w r = Except.ok (w2, r) ∧
        getProp (heapGet w2 r) "id" = Option.some (JSVal.num w.nextId) ∧
        immediately.addEntity w2 r = Except.error dupIdMsg) := by
  constructor
  · intro h
    unfold immediately.addEntity
    rw [if_pos h]
  · intro h
    refine ⟨afterAdd w r, immAdd_ok w r h, ?_, ?_⟩
    · rw [heapGet_afterAdd w r hr]
      exact getProp_setProp_self _ _ _
    · unfold immediately.addEntity
      rw [if_pos (by rw [heapGet_afterAdd w r hr]; exact hasKey_setProp_self _ _ _)]

/-- C4 witness: the failing branch at a concrete entity that already has
an `id` key, and the succeeding branch at a concrete entity without one. -/
theorem addEntity_identifier_witness :
    (immediately.addEntity { createWorld with heap := [[("id", JSVal.num 7)]] } 0 =
      Except.error dupIdMsg) ∧
    (∃ w2, immediately.addEntity { createWorld with heap := [[("x", JSVal.num 5)]] } 0 =
        Except.ok (w2, 0) ∧
      getProp (heapGet w2 0) "id" =
        Option.some (JSVal.num ({ createWorld with heap := [[("x", JSVal.num 5)]] } : World).nextId) ∧
      immediately.addEntity w2 0 = Except.error dupIdMsg) :=
  ⟨(addEntity_identifier { createWorld with heap := [[("id", JSVal.num 7)]] } 0
      (by decide)).1 (by decide),
   (addEntity_identifier { createWorld with heap := [[("x", JSVal.num 5)]] } 0
      (by decide)).2 (by decide)⟩

/-- C9: `clear()` empties the master entity list, removes every
archetype index together with its listener registry, and discards the
pending queue without executing it (no entity object is touched: the
heap is unchanged, as are the memoization cache and the identifier
counter). A `get` on any archetype object created before the clear
yields an absent result, and `getOne` on it raises, until the archetype
is re-created. -/
theorem clear_teardown (w : World) :
    (clear w).entities = [] ∧ (clear w).archetypes = [] ∧ (clear w).queue = [] ∧
    (clear w).heap = w.heap ∧ (clear w).memo = w.memo ∧
    (clear w).nextId = w.nextId ∧
    (∀ a, get (clear w) a = Option.none) ∧
    (∀ a, getOne (clear w) a = Except.error typeErrMsg) := by
  refine ⟨rfl, rfl, rfl, rfl, rfl, rfl, ?_, ?_⟩ <;>
    intro a <;> simp [get, getOne, clear, findArch]

/-- C10: for an archetype object that is not registered in the store
(no index exists for its identity, as for any archetype after `clear()`
until re-created), `get` returns the absent value without raising while
`getOne` raises a TypeError by dereferencing the missing index; both
functions only read the world, so no store state changes and the
archetype stays unregistered. -/
theorem get_getOne_unregistered (w : World) (a : Nat)
    (h : ∀ en ∈ w.archetypes, en.aid ≠ a) :
    get w a = Option.none ∧ getOne w a = Except.error typeErrMsg ∧
    (∀ w0 : World, ∀ a0 : Nat, get (clear w0) a0 = Option.none ∧
      getOne (clear w0) a0 = Except.error typeErrMsg) := by
  have hf := findArch_none_of_forall h
  refine ⟨?_, ?_, ?_⟩
  · simp [get, hf]
  · simp [getOne, hf]
  · intro w0 a0
    exact ⟨by simp [get, clear, findArch], by simp [getOne, clear, findArch]⟩

/-- C10 witness: a fresh world has no registered archetype, so `get`
yields the absent value and `getOne` raises at archetype identity 0. -/
theorem get_getOne_unregistered_witness :
    get createWorld 0 = Option.none ∧
    getOne createWorld 0 = Except.error typeErrMsg ∧
    (∀ w0 : World, ∀ a0 : Nat, get (clear w0) a0 = Option.none ∧
      getOne (clear w0) a0 = Except.error typeErrMsg) :=
  get_getOne_unregistered createWorld 0 (by decide)

theorem all_lookup_after (s : Preds.PredState) (xs : List String) :
    lookupList (Preds.all s xs).1.allStore (Preds.canonKey xs)
      = Option.some (Preds.all s xs).2 := by
  simp only [Preds.all, Preds.canonKey]
  split
  case h_1 fid heq => exact heq
  case h_2 heq => exact lookupList_append_self _ heq

theorem any_lookup_after (s : Preds.PredState) (xs : List String) :
    lookupList (Preds.any s xs).1.anyStore (Preds.canonKey xs)
      = Option.some (Preds.any s xs).2 := by
  simp only [Preds.any, Preds.canonKey]
  split
  case h_1 fid heq => exact heq
  case h_2 heq => exact lookupList_append_self _ heq

theorem noneOf_lookup_after (s : Preds.PredState) (xs : List String) :
    lookupList (Preds.noneOf s xs).1.noneStore (Preds.canonKey xs)
      = Option.some (Preds.noneOf s xs).2 := by
  simp only [Preds.noneOf, Preds.canonKey]
  split
  case h_1 fid heq => exact heq
  case h_2 heq => exact lookupList_append_self _ heq

theorem notOf_lookup_after (s : Preds.PredState) (p : Nat) :
    lookupList (Preds.notOf s p).1.notStore p
      = Option.some (Preds.notOf s p).2 := by
  simp only [Preds.notOf]
  split
  case h_1 fid heq => exact heq
  case h_2 heq => exact lookupList_append_self _ heq

theorem stepPred_preserves_all {s : Preds.PredState} {k : List String} {f : Nat}
    (c : Preds.PredCall) (h : lookupList s.allStore k = Option.some f) :
    lookupList (Preds.stepPred s c).allStore k = Option.some f := by
  cases c with
  | callAll cs =>
    simp only [Preds.stepPred]
    simp only [Preds.all]
    split
    · exact h
    · exact lookupList_append_left h
  | callAny cs =>
    simp only [Preds.stepPred]
    simp only [Preds.any]
    split
    · exact h
    · exact h
  | callNone cs =>
    simp only [Preds.stepPred]
    simp only [Preds.noneOf]
    split
    · exact h
    · exact h
  | callNot p =>
    simp only [Preds.stepPred]
    simp only [Preds.notOf]
    split
    · exact h
    · exact h

theorem stepPred_preserves_any {s : Preds.PredState} {k : List String} {f : Nat}
    (c : Preds.PredCall) (h : lookupList s.anyStore k = Option.some f) :
    lookupList (Preds.stepPred s c).anyStore k = Option.some f := by
  cases c with
  | callAll cs =>
    simp only [Preds.stepPred]
    simp only [Preds.all]
    split
    · exact h
    · exact h
  | callAny cs =>
    simp only [Preds.stepPred]
    simp only [Preds.any]
    split
    · exact h
    · exact lookupList_append_left h
  | callNone cs =>
    simp only [Preds.stepPred]
    simp only [Preds.noneOf]
    split
    · exact h
    · exact h
  | callNot p =>
    simp only [Preds.stepPred]
    simp only [Preds.notOf]
    split
    · exact h
    · exact h

theorem stepPred_preserves_noneOf {s : Preds.PredState} {k : List String} {f : Nat}
    (c : Preds.PredCall) (h : lookupList s.noneStore k = Option.some f) :
    lookupList (Preds.stepPred s c).noneStore k = Option.some f := by
  cases c with
  | callAll cs =>
    simp only [Preds.stepPred]
    simp only [Preds.all]
    split
    · exact h
    · exact h
  | callAny cs =>
    simp only [Preds.stepPred]
    simp only [Preds.any]
    split
    · exact h
    · exact h
  | callNone cs =>
    simp only [Preds.stepPred]
    simp only [Preds.noneOf]
    split
    · exact h
    · exact lookupList_append_left h
  | callNot p =>
    simp only [Preds.stepPred]
    simp only [Preds.notOf]
    split
    · exact h
    · exact h

theorem stepPred_preserves_notOf {s : Preds.PredState} {k f : Nat}
    (c : Preds.PredCall) (h : lookupList s.notStore k = Option.some f) :
    lookupList (Preds.stepPred s c).notStore k = Option.some f := by
  cases c with
  | callAll cs =>
    simp only [Preds.stepPred]
    simp only [Preds.all]
    split
    · exact h
    · exact h
  | callAny cs =>
    simp only [Preds.stepPred]
    simp only [Preds.any]
    split
    · exact h
    · exact h
  | callNone cs =>
    simp only [Preds.stepPred]
    simp only [Preds.noneOf]
    split
    · exact h
    · exact h
  | callNot p =>
    simp only [Preds.stepPred]
    simp only [Preds.notOf]
    split
    · exact h
    · exact lookupList_append_left h

theorem runPred_preserves_all {s : Preds.PredState} {k : List String} {f : Nat}
    (calls : List Preds.PredCall) (h : lookupList s.allStore k = Option.some f) :
    lookupList (Preds.runPred s calls).allStore k = Option.some f := by
  induction calls generalizing s with
  | nil => exact h
  | cons c cs ih => exact ih (stepPred_preserves_all c h)

theorem runPred_preserves_any {s : Preds.PredState} {k : List String} {f : Nat}
    (calls : List Preds.PredCall) (h : lookupList s.anyStore k = Option.some f) :
    lookupList (Preds.runPred s calls).anyStore k = Option.some f := by
  induction calls generalizing s with
  | nil => exact h
  | cons c cs ih => exact ih (stepPred_preserves_any c h)

theorem runPred_preserves_noneOf {s : Preds.PredState} {k : List String} {f : Nat}
    (calls : List Preds.PredCall) (h : lookupList s.noneStore k = Option.some f) :
    lookupList (Preds.runPred s calls).noneStore k = Option.some f := by
  induction calls generalizing s with
  | nil => exact h
  | cons c cs ih => exact ih (stepPred_preserves_noneOf c h)

theorem runPred_preserves_notOf {s : Preds.PredState} {k f : Nat}
    (calls : List Preds.PredCall) (h : lookupList s.notStore k = Option.some f) :
    lookupList (Preds.runPred s calls).notStore k = Option.some f := by
  induction calls generalizing s with
  | nil => exact h
  | cons c cs ih => exact ih (stepPred_preserves_notOf c h)

theorem all_hit {s : Preds.PredState} {f : Nat} (xs : List String)
    (h : lookupList s.allStore (Preds.canonKey xs) = Option.some f) :
    Preds.all s xs = (s, f) := by
  simp only [Preds.all]
  unfold Preds.canonKey at h
  rw [h]

theorem any_hit {s : Preds.PredState} {f : Nat} (xs : List String)
    (h : lookupList s.anyStore (Preds.canonKey xs) = Option.some f) :
    Preds.any s xs = (s, f) := by
  simp only [Preds.any]
  unfold Preds.canonKey at h
  rw [h]

theorem noneOf_hit {s : Preds.PredState} {f : Nat} (xs : List String)
    (h : lookupList s.noneStore (Preds.canonKey xs) = Option.some f) :
    Preds.noneOf s xs = (s, f) := by
  simp only [Preds.noneOf]
  unfold Preds.canonKey at h
  rw [h]

theorem notOf_hit {s : Preds.PredState} {p f : Nat}
    (h : lookupList s.notStore p = Option.some f) :
    Preds.notOf s p = (s, f) := by
  simp only [Preds.notOf]
  rw [h]

/-- C7: the predicate constructors are memoized. Two calls to `all`
(likewise `any` and `none`) whose component-name lists have the same
canonical key (equal after sorting, deduplicating and dropping
empty/falsy names) return the identical function object, however many
other constructor calls happen in between; and two calls to `not` with
the identical predicate argument return the identical function object. -/
theorem predicate_constructors_memoized (s : Preds.PredState) (xs ys : List String)
    (p : Nat) (calls : List Preds.PredCall)
    (h : Preds.canonKey xs = Preds.canonKey ys) :
    (Preds.all (Preds.runPred (Preds.all s xs).1 calls) ys).2 = (Preds.all s xs).2 ∧
    (Preds.any (Preds.runPred (Preds.any s xs).1 calls) ys).2 = (Preds.any s xs).2 ∧
    (Preds.noneOf (Preds.runPred (Preds.noneOf s xs).1 calls) ys).2
      = (Preds.noneOf s xs).2 ∧
    (Preds.notOf (Preds.runPred (Preds.notOf s p).1 calls) p).2
      = (Preds.notOf s p).2 := by
  refine ⟨?_, ?_, ?_, ?_⟩
  · have h2 := runPred_preserves_all calls (all_lookup_after s xs)
    rw [h] at h2
    rw [all_hit ys h2]
  · have h2 := runPred_preserves_any calls (any_lookup_after s xs)
    rw [h] at h2
    rw [any_hit ys h2]
  · have h2 := runPred_preserves_noneOf calls (noneOf_lookup_after s xs)
    rw [h] at h2
    rw [noneOf_hit ys h2]
  · have h2 := runPred_preserves_notOf calls (notOf_lookup_after s p)
    rw [notOf_hit h2]

/-- C7 witness: `all("y","x")` after `all("x","y")` with an unrelated
`all("z")` in between returns the same function object, and likewise for
`any`, `none` and `not` on predicate 0. -/
theorem predicate_constructors_memoized_witness :
    (Preds.all (Preds.runPred (Preds.all Preds.predInit ["x", "y"]).1
        [Preds.PredCall.callAll ["z"]]) ["y", "x"]).2
      = (Preds.all Preds.predInit ["x", "y"]).2 ∧
    (Preds.any (Preds.runPred (Preds.any Preds.predInit ["x", "y"]).1
        [Preds.PredCall.callAll ["z"]]) ["y", "x"]).2
      = (Preds.any Preds.predInit ["x", "y"]).2 ∧
    (Preds.noneOf (Preds.runPred (Preds.noneOf Preds.predInit ["x", "y"]).1
        [Preds.PredCall.callAll ["z"]]) ["y", "x"]).2
      = (Preds.noneOf Preds.predInit ["x", "y"]).2 ∧
    (Preds.notOf (Preds.runPred (Preds.notOf Preds.predInit 0).1
        [Preds.PredCall.callAll ["z"]]) 0).2
      = (Preds.notOf Preds.predInit 0).2 :=
  predicate_constructors_memoized Preds.predInit ["x", "y"] ["y", "x"] 0
    [Preds.PredCall.callAll ["z"]] (by decide)

theorem lookupList_singleton_self {κ β : Type} [DecidableEq κ] (k : κ) (v : β) :
    lookupList [(k, v)] k = Option.some v := by
  simp [lookupList]

theorem combEntryOk_spec {funs : List (Nat × Preds.PredDef)} {k : Preds.PredKind}
    {en : List String × Nat} (h : combEntryOk funs k en = true) :
    ∃ comps, lookupList funs en.2 = Option.some (Preds.PredDef.comb k comps) ∧
      Preds.canonKey comps = en.1 ∧ "" ∉ comps := by
  unfold combEntryOk at h
  split at h
  case h_1 k2 comps heq =>
    simp only [Bool.and_eq_true, decide_eq_true_eq] at h
    obtain ⟨⟨hk2, hck⟩, hnem⟩ := h
    subst hk2
    exact ⟨comps, heq, hck, hnem⟩
  case h_2 => simp at h

theorem notEntryOk_spec {funs : List (Nat × Preds.PredDef)} {en : Nat × Nat}
    (h : notEntryOk funs en = true) :
    lookupList funs en.2 = Option.some (Preds.PredDef.neg en.1) := by
  unfold notEntryOk at h
  split at h
  case h_1 p heq =>
    simp only [decide_eq_true_eq] at h
    subst h
    exact heq
  case h_2 => simp at h

theorem all_eq_of_canonKey {xs ys : List String} (p : String → Bool)
    (hx : "" ∉ xs) (hy : "" ∉ ys)
    (h : Preds.canonKey xs = Preds.canonKey ys) : xs.all p = ys.all p := by
  apply all_congr_mem
  intro a
  rw [← mem_canonKey hx (a := a), h, mem_canonKey hy]

theorem any_eq_of_canonKey {xs ys : List String} (p : String → Bool)
    (hx : "" ∉ xs) (hy : "" ∉ ys)
    (h : Preds.canonKey xs = Preds.canonKey ys) : xs.any p = ys.any p := by
  apply any_congr_mem
  intro a
  rw [← mem_canonKey hx (a := a), h, mem_canonKey hy]

theorem evalFun_append (funs : List (Nat × Preds.PredDef)) (n : Nat) (d : Preds.PredDef)
    (_hb : ∀ x ∈ funs, x.1 < n) (hn : ∀ x ∈ funs, negOkB x = true) :
    ∀ fuel q e, q < n →
      Preds.evalFun (funs ++ [(n, d)]) fuel q e = Preds.evalFun funs fuel q e := by
  intro fuel
  induction fuel with
  | zero => intro q e hq; rfl
  | succ fuel ih =>
    intro q e hq
    have hlk : lookupList (funs ++ [(n, d)]) q = lookupList funs q := by
      cases hl : lookupList funs q with
      | some dd => rw [lookupList_append_left hl]
      | none =>
        rw [lookupList_append_right _ hl]
        simp only [lookupList]
        rw [if_neg (Nat.ne_of_gt hq)]
    simp only [Preds.evalFun]
    rw [hlk]
    cases hl : lookupList funs q with
    | none => rfl
    | some dd =>
      cases dd with
      | comb k comps => cases k <;> rfl
      | neg p2 =>
        have h2 := hn _ (lookupList_mem hl)
        simp only [negOkB, decide_eq_true_eq] at h2
        show (!Preds.evalFun (funs ++ [(n, d)]) fuel p2 e)
          = (!Preds.evalFun funs fuel p2 e)
        rw [ih p2 e (Nat.lt_trans h2 hq)]

theorem all_semantics_aux (s : Preds.PredState) (comps : List String) (e : Entity)
    (fuel : Nat) (hwf : PredWF s) (hne : "" ∉ comps) :
    Preds.evalFun (Preds.all s comps).1.funs (fuel + 1) (Preds.all s comps).2 e
      = comps.all (fun c => defined e c) := by
  obtain ⟨hb, hall, _, _, _⟩ := hwf
  cases hm : lookupList s.allStore (Preds.canonKey comps) with
  | some fid =>
    rw [all_hit comps hm]
    obtain ⟨comps0, hlk, hck, hne0⟩ := combEntryOk_spec (hall _ (lookupList_mem hm))
    simp only [Preds.evalFun, hlk]
    exact all_eq_of_canonKey _ hne0 hne hck
  | none =>
    have hmiss : Preds.all s comps =
        (⟨s.funs ++ [(s.nextFun,
            Preds.PredDef.comb Preds.PredKind.allK (jsSortStrings comps))],
          s.nextFun + 1, s.notStore,
          s.allStore ++ [(Preds.canonKey comps, s.nextFun)],
          s.anyStore, s.noneStore⟩, s.nextFun) := by
      simp only [Preds.all]
      unfold Preds.canonKey at hm
      rw [hm]
      rfl
    rw [hmiss]
    have hnone2 : lookupList s.funs s.nextFun = Option.none :=
      lookupList_none_of_forall (fun x hx => Nat.ne_of_lt (hb x hx).1)
    simp only [Preds.evalFun]
    rw [lookupList_append_right _ hnone2, lookupList_singleton_self]
    exact all_congr_mem _ (fun a => mem_jsSortStrings)

theorem any_semantics_aux (s : Preds.PredState) (comps : List String) (e : Entity)
    (fuel : Nat) (hwf : PredWF s) (hne : "" ∉ comps) :
    Preds.evalFun (Preds.any s comps).1.funs (fuel + 1) (Preds.any s comps).2 e
      = comps.any (fun c => defined e c) := by
  obtain ⟨hb, _, hany, _, _⟩ := hwf
  cases hm : lookupList s.anyStore (Preds.canonKey comps) with
  | some fid =>
    rw [any_hit comps hm]
    obtain ⟨comps0, hlk, hck, hne0⟩ := combEntryOk_spec (hany _ (lookupList_mem hm))
    simp only [Preds.evalFun, hlk]
    exact any_eq_of_canonKey _ hne0 hne hck
  | none =>
    have hmiss : Preds.any s comps =
        (⟨s.funs ++ [(s.nextFun,
            Preds.PredDef.comb Preds.PredKind.anyK (jsSortStrings comps))],
          s.nextFun + 1, s.notStore, s.allStore,
          s.anyStore ++ [(Preds.canonKey comps, s.nextFun)],
          s.noneStore⟩, s.nextFun) := by
      simp only [Preds.any]
      unfold Preds.canonKey at hm
      rw [hm]
      rfl
    rw [hmiss]
    have hnone2 : lookupList s.funs s.nextFun = Option.none :=
      lookupList_none_of_forall (fun x hx => Nat.ne_of_lt (hb x hx).1)
    simp only [Preds.evalFun]
    rw [lookupList_append_right _ hnone2, lookupList_singleton_self]
    exact any_congr_mem _ (fun a => mem_jsSortStrings)

theorem noneOf_semantics_aux (s : Preds.PredState) (comps : List String) (e : Entity)
    (fuel : Nat) (hwf : PredWF s) (hne : "" ∉ comps) :
    Preds.evalFun (Preds.noneOf s comps).1.funs (fuel + 1) (Preds.noneOf s comps).2 e
      = comps.all (fun c => !(defined e c)) := by
  obtain ⟨hb, _, _, hnone, _⟩ := hwf
  cases hm : lookupList s.noneStore (Preds.canonKey comps) with
  | some fid =>
    rw [noneOf_hit comps hm]
    obtain ⟨comps0, hlk, hck, hne0⟩ := combEntryOk_spec (hnone _ (lookupList_mem hm))
    simp only [Preds.evalFun, hlk]
    exact all_eq_of_canonKey _ hne0 hne hck
  | none =>
    have hmiss : Preds.noneOf s comps =
        (⟨s.funs ++ [(s.nextFun,
            Preds.PredDef.comb Preds.PredKind.noneK (jsSortStrings comps))],
          s.nextFun + 1, s.notStore, s.allStore, s.anyStore,
          s.noneStore ++ [(Preds.canonKey comps, s.nextFun)]⟩, s.nextFun) := by
      simp only [Preds.noneOf]
      unfold Preds.canonKey at hm
      rw [hm]
      rfl
    rw [hmiss]
    have hnone2 : lookupList s.funs s.nextFun = Option.none :=
      lookupList_none_of_forall (fun x hx => Nat.ne_of_lt (hb x hx).1)
    simp only [Preds.evalFun]
    rw [lookupList_append_right _ hnone2, lookupList_singleton_self]
    exact all_congr_mem _ (fun a => mem_jsSortStrings)

theorem not_semantics_aux (s : Preds.PredState) (p : Nat) (e : Entity) (fuel : Nat)
    (hwf : PredWF s) (hp : p < s.nextFun) :
    Preds.evalFun (Preds.notOf s p).1.funs (fuel + 1) (Preds.notOf s p).2 e
      = !(Preds.evalFun s.funs fuel p e) := by
  obtain ⟨hb, _, _, _, hnot⟩ := hwf
  cases hm : lookupList s.notStore p with
  | some fid =>
    rw [notOf_hit hm]
    have hlk := notEntryOk_spec (hnot _ (lookupList_mem hm))
    simp only [Preds.evalFun, hlk]
  | none =>
    have hmiss : Preds.notOf s p =
        (⟨s.funs ++ [(s.nextFun, Preds.PredDef.neg p)], s.nextFun + 1,
          s.notStore ++ [(p, s.nextFun)], s.allStore, s.anyStore,
          s.noneStore⟩, s.nextFun) := by
      simp only [Preds.notOf]
      rw [hm]
    rw [hmiss]
    have hnone2 : lookupList s.funs s.nextFun = Option.none :=
      lookupList_none_of_forall (fun x hx => Nat.ne_of_lt (hb x hx).1)
    simp only [Preds.evalFun]
    rw [lookupList_append_right _ hnone2, lookupList_singleton_self]
    show (!Preds.evalFun (s.funs ++ [(s.nextFun, Preds.PredDef.neg p)]) fuel p e)
      = (!Preds.evalFun s.funs fuel p e)
    rw [evalFun_append s.funs s.nextFun _ (fun x hx => (hb x hx).1)
      (fun x hx => (hb x hx).2) fuel p e hp]

/-- C8 counterexample: `all("a","")` followed by `all("a")` shares one
function object (the memo key filters the empty name, the captured
closure list does not), so the predicate returned by `all("a")` tests
the empty name too: on the entity with only `a` defined it returns
`false`, although every listed component (namely `a`) is defined, which
refutes the claim as stated at this concrete input. -/
theorem predicate_semantics_counterexample :
    Preds.evalFun (Preds.all (Preds.all Preds.predInit ["a", ""]).1 ["a"]).1.funs 1
      (Preds.all (Preds.all Preds.predInit ["a", ""]).1 ["a"]).2 entA = false ∧
    List.all ["a"] (fun c => defined entA c) = true := by decide

/-- C8 (amended): in every well-formed module state (one reachable
without ever passing an empty/falsy component name to a constructor, and
passing only existing function objects to `not`), the predicate returned
by `all` is true on an entity iff every listed component is defined on
it, `any` iff at least one listed component is defined, `none` iff no
listed component is defined, and `not(p)` is the pointwise negation of
`p`. With an empty name in a call the returned (shared) predicate may
also test the empty name, as the counterexample shows. -/
theorem predicate_semantics (s : Preds.PredState) (comps : List String) (p : Nat)
    (e : Entity) (fuel : Nat) (hwf : PredWF s) (hne : "" ∉ comps)
    (hp : p < s.nextFun) :
    Preds.evalFun (Preds.all s comps).1.funs (fuel + 1) (Preds.all s comps).2 e
      = comps.all (fun c => defined e c) ∧
    Preds.evalFun (Preds.any s comps).1.funs (fuel + 1) (Preds.any s comps).2 e
      = comps.any (fun c => defined e c) ∧
    Preds.evalFun (Preds.noneOf s comps).1.funs (fuel + 1) (Preds.noneOf s comps).2 e
      = comps.all (fun c => !(defined e c)) ∧
    Preds.evalFun (Preds.notOf s p).1.funs (fuel + 1) (Preds.notOf s p).2 e
      = !(Preds.evalFun s.funs fuel p e) :=
  ⟨all_semantics_aux s comps e fuel hwf hne,
   any_semantics_aux s comps e fuel hwf hne,
   noneOf_semantics_aux s comps e fuel hwf hne,
   not_semantics_aux s p e fuel hwf hp⟩

/-- C8 witness: the amended theorem applied in the concrete state with
one `all("b")` function allocated, at the list `["a"]`, predicate 0 and
the entity with only `a` defined. -/
theorem predicate_semantics_witness :
    Preds.evalFun (Preds.all predW ["a"]).1.funs 1 (Preds.all predW ["a"]).2 entA
      = List.all ["a"] (fun c => defined entA c) ∧
    Preds.evalFun (Preds.any predW ["a"]).1.funs 1 (Preds.any predW ["a"]).2 entA
      = List.any ["a"] (fun c => defined entA c) ∧
    Preds.evalFun (Preds.noneOf predW ["a"]).1.funs 1 (Preds.noneOf predW ["a"]).2 entA
      = List.all ["a"] (fun c => !(defined entA c)) ∧
    Preds.evalFun (Preds.notOf predW 0).1.funs 1 (Preds.notOf predW 0).2 entA
      = !(Preds.evalFun predW.funs 0 0 entA) :=
  predicate_semantics predW ["a"] 0 entA 0 (by unfold PredWF; decide) (by decide)
    (by decide)

theorem forall2_map_of {α : Type} (P : α → α → Prop) (f : α → α)
    (h : ∀ a, P a (f a)) : ∀ l : List α, List.Forall₂ P l (l.map f)
  | [] => List.Forall₂.nil
  | a :: l => List.Forall₂.cons (h a) (forall2_map_of P f h l)

theorem newTouch_cases (hp : List Entity) (r : Nat) (added : List String) :
    ∀ a, newTouch hp r added a = a ∨
      newTouch hp r added a = { a with index := a.index ++ [r], fires := a.fires + 1 } := by
  intro a
  unfold newTouch
  split
  · split
    · exact Or.inr rfl
    · exact Or.inl rfl
  · exact Or.inl rfl

theorem runCommands_append (w : World) (q1 q2 : List Command) :
    runCommands w (q1 ++ q2) =
      (runCommands w q1).bind (fun w1 => runCommands w1 q2) := by
  induction q1 generalizing w with
  | nil => rfl
  | cons c cs ih =>
    simp only [List.cons_append, runCommands]
    cases hc : runCommand w c with
    | error m => rfl
    | ok w2 => exact ih w2

theorem immAdd_queue (w : World) (qq : List Command) (r : Nat) :
    immediately.addEntity { w with queue := qq } r =
      Except.map (fun p => ({ p.1 with queue := qq }, p.2))
        (immediately.addEntity w r) := by
  unfold immediately.addEntity
  rw [show heapGet { w with queue := qq } r = heapGet w r from rfl]
  by_cases hk : hasKey (heapGet w r) "id" = true
  · rw [if_pos hk, if_pos hk]
    rfl
  · rw [if_neg hk, if_neg hk]
    rfl

theorem flush_deferred_addEntity (w : World) (r : Nat) (hq : w.queue = [])
    (w2 : World) (h : immediately.addEntity w r = Except.ok (w2, r)) :
    flush (addEntity w r).1 = Except.ok { w2 with queue := [] } ∧
    List.Forall₂
      (fun a b => b = a ∨ b = { a with index := a.index ++ [r], fires := a.fires + 1 })
      w.archetypes w2.archetypes := by
  constructor
  · have h1 : immediately.addEntity { w with queue := [Command.addEntity r] } r
        = Except.ok ({ w2 with queue := [Command.addEntity r] }, r) := by
      rw [immAdd_queue w [Command.addEntity r] r, h]
      rfl
    have h2 : (addEntity w r).1 = { w with queue := [Command.addEntity r] } := by
      simp [addEntity, hq]
    rw [h2]
    unfold flush
    dsimp only
    simp only [runCommands, runCommand, h1]
    rfl
  · have hk : hasKey (heapGet w r) "id" = false := by
      cases hkk : hasKey (heapGet w r) "id"
      · rfl
      · unfold immediately.addEntity at h
        rw [if_pos hkk] at h
        exact absurd h (by simp)
    rw [immAdd_ok w r hk] at h
    simp only [Except.ok.injEq, Prod.mk.injEq] at h
    obtain ⟨hw2, -⟩ := h
    subst hw2
    exact forall2_map_of _ _ (newTouch_cases _ _ _) w.archetypes

/-- C6: deferred mutations have no observable effect before `flush()` —
each of the four deferred operations leaves the master list, every
archetype index and every listener count unchanged and only appends its
command to the queue (deferred `addEntity` also returns the entity
unchanged); `flush()` executes the queued commands in enqueue (FIFO)
order and then empties the queue; and for a deferred `addEntity` on an
empty queue, flushing yields exactly the immediate-addEntity world, in
which every archetype entry is either untouched or extended by the new
entity with its listeners fired exactly once. -/
theorem deferred_until_flush (w : World) (r r2 r3 r4 : Nat) (n : String) (v : JSVal)
    (ns : List String) (q1 q2 : List Command) :
    ((addEntity w r).1.entities = w.entities ∧
      (addEntity w r).1.archetypes = w.archetypes ∧
      (addEntity w r).1.heap = w.heap ∧
      (addEntity w r).1.queue = w.queue ++ [Command.addEntity r] ∧
      (addEntity w r).2 = r) ∧
    (removeEntity w r2 = { w with queue := w.queue ++ [Command.removeEntity r2] }) ∧
    (addComponent w r3 n v
      = { w with queue := w.queue ++ [Command.addComponent r3 n v] }) ∧
    (removeComponent w r4 ns
      = { w with queue := w.queue ++ [Command.removeComponent r4 ns] }) ∧
    (w.queue = q1 ++ q2 →
      flush w = Except.map (fun w3 => { w3 with queue := [] })
        ((runCommands w q1).bind (fun w1 => runCommands w1 q2))) ∧
    (w.queue = [] → ∀ w2, immediately.addEntity w r = Except.ok (w2, r) →
      flush (addEntity w r).1 = Except.ok { w2 with queue := [] } ∧
      List.Forall₂
        (fun a b => b = a ∨ b = { a with index := a.index ++ [r], fires := a.fires + 1 })
        w.archetypes w2.archetypes) := by
  refine ⟨⟨rfl, rfl, rfl, rfl, rfl⟩, rfl, rfl, rfl, ?_, ?_⟩
  · intro hsplit
    unfold flush
    rw [hsplit, runCommands_append]
  · intro hq w2 h
    exact flush_deferred_addEntity w r hq w2 h

/-- C6 witness: the theorem applied to the concrete world `c6W` (one
entity allocated, archetype `(a)` registered, empty queue), with the
deferred `addEntity` of entity 0 flushed into `c6Exp`. -/
theorem deferred_until_flush_witness :
    ((addEntity c6W 0).1.entities = c6W.entities ∧
      (addEntity c6W 0).1.archetypes = c6W.archetypes ∧
      (addEntity c6W 0).1.heap = c6W.heap ∧
      (addEntity c6W 0).1.queue = c6W.queue ++ [Command.addEntity 0] ∧
      (addEntity c6W 0).2 = 0) ∧
    (flush c6W = Except.map (fun w3 => { w3 with queue := [] })
      ((runCommands c6W []).bind (fun w1 => runCommands w1 []))) ∧
    (flush (addEntity c6W 0).1 = Except.ok { c6Exp with queue := [] } ∧
      List.Forall₂
        (fun a b => b = a ∨ b = { a with index := a.index ++ [0], fires := a.fires + 1 })
        c6W.archetypes c6Exp.archetypes) :=
  ⟨(deferred_until_flush c6W 0 0 0 0 "b" (JSVal.num 2) ["b"] [] []).1,
   (deferred_until_flush c6W 0 0 0 0 "b" (JSVal.num 2) ["b"] [] []).2.2.2.2.1 rfl,
   (deferred_until_flush c6W 0 0 0 0 "b" (JSVal.num 2) ["b"] [] []).2.2.2.2.2 rfl
     c6Exp (by rfl)⟩

end Miniplex
